import Mathlib

/-!
Shallow embedding of the `Sortable` drag-and-drop widget
(src/src/js/sortable.js, with the reduced variants src/unnamed/part_001 and
src/unnamed/part_002), and proofs about its reorder logic.

The DOM is abstracted to the single sortable list the widget manipulates:
an ordered `List` of opaque elements. An element carries exactly the two
attributes the handlers inspect — whether it matches the configured sortable
attribute selector and whether it lies inside the active container. CSS class
toggling, focus and the assistive-text narration are pure side channels with
no influence on the reorder logic and are not modelled. A handler that can
dereference a null reference (and so raise a TypeError) is embedded as an
`Option`-valued function, `none` standing for the raised exception.
-/

namespace Sortable

/-- A DOM element abstracted to what the handlers inspect: an identity,
whether it matches the configured sortable attribute selector
(`el.matches('[data-sortable]')`), and whether it lies inside the active
sortable container (`state.sortableContainer.contains(el)`; also whether
`el.closest(config.sortableContainer)` finds a container). -/
structure Elem where
  id : Nat
  sortable : Bool
  inContainer : Bool
  deriving DecidableEq, Repr

/-- The component state (`this.state`) together with the ordered child list
of the sortable list element (the DOM children the widget reorders).
`draggingIndex = none` models the JavaScript value `undefined`. The
`sortableList` and `sortableContainer` Booleans record whether those
references are non-null; the single modelled list and container stand for
the referenced nodes. The assistive-text field (ARIA narration only) is not
modelled. -/
structure SortState where
  children : List Elem
  draggingElement : Option Elem
  draggingIndex : Option Nat
  sortableList : Bool
  sortableContainer : Bool
  deriving DecidableEq, Repr

/-- The scan loop of `getSortableIndex`: the index of the first occurrence
of `el`, counting from `i`; `none` when the loop falls through. -/
def findLoop : List Elem → Elem → Nat → Option Nat
  | [], _, _ => none
  | c :: rest, el, i => if c = el then some i else findLoop rest el (i + 1)

/-- The loop of `getSortableIndex` together with its fallthrough: the index
of the first occurrence of `el` among the children, and `0` when the loop
finds nothing (`return 0`). -/
def scanChildren (l : List Elem) (el : Elem) : Nat :=
  match findLoop l el 0 with
  | some i => i
  | none => 0

/-- `Sortable.getSortableIndex` (src/src/js/sortable.js lines 157-168):
returns JavaScript `undefined` (here `none`) when `state.sortableList` is
null, otherwise scans the list children left to right and falls back to `0`
when the element is not found. -/
def getSortableIndex (s : SortState) (el : Elem) : Option Nat :=
  if s.sortableList = false then none
  else some (scanChildren s.children el)

/-- The JavaScript comparison `getSortableIndex(target) < state.draggingIndex`:
any comparison involving `undefined` is false. -/
def jsLt : Option Nat → Option Nat → Bool
  | some a, some b => decide (a < b)
  | _, _ => false

/-- `target.insertAdjacentElement(pos, el)` restricted to the modelled list:
inserts `el` immediately before (`beforebegin`, `before = true`) or
immediately after (`afterend`, `before = false`) the first occurrence of
`target`. -/
def insertAdjacent (before : Bool) (target el : Elem) : List Elem → List Elem
  | [] => []
  | c :: rest =>
    if c = target then
      if before then el :: c :: rest else c :: el :: rest
    else c :: insertAdjacent before target el rest

/-- `Sortable.sort` (src/src/js/sortable.js lines 132-150). Returns the new
state together with the list of state snapshots passed to the `onSort`
callback. `none` models a raised exception — `removeChild` on a null list or
on a non-child — and, outside the scope of the single-list model, a target
that is not among the modelled list children. -/
def sort (s : SortState) (target : Elem) : Option (SortState × List SortState) :=
  let draggingUpwards := jsLt (getSortableIndex s target) s.draggingIndex
  match s.draggingElement with
  | none => none
  | some drag =>
    if s.sortableList = false then none
    else if drag ∈ s.children then
      if target ∈ s.children.erase drag then
        let s2 : SortState :=
          { s with children := insertAdjacent draggingUpwards target drag (s.children.erase drag) }
        let s3 : SortState := { s2 with draggingIndex := getSortableIndex s2 drag }
        some (s3, [s3])
      else none
    else none

/-- `Sortable.sort` of the reduced variant (src/unnamed/part_002 lines
103-120): the same direction, removal, reinsertion and index-recompute logic
as the full variant, but the configured `onSort` callback is never invoked —
the snapshot log of a successful reorder is always empty. -/
def sortVariant (s : SortState) (target : Elem) : Option (SortState × List SortState) :=
  let draggingUpwards := jsLt (getSortableIndex s target) s.draggingIndex
  match s.draggingElement with
  | none => none
  | some drag =>
    if s.sortableList = false then none
    else if drag ∈ s.children then
      if target ∈ s.children.erase drag then
        let s2 : SortState :=
          { s with children := insertAdjacent draggingUpwards target drag (s.children.erase drag) }
        let s3 : SortState := { s2 with draggingIndex := getSortableIndex s2 drag }
        some (s3, [])
      else none
    else none

/-- `Sortable.start` (src/src/js/sortable.js lines 56-81): guarded on the
sortable attribute; saves the dragging element, its parent list, its index
and the enclosing container. `none` models the raised exception when the
target has no enclosing container (`closest` returns null, which the handler
then dereferences). -/
def start (s : SortState) (t : Elem) : Option SortState :=
  if t.sortable = false then some s
  else
    let s1 : SortState := { s with draggingElement := some t, sortableList := true }
    let s2 : SortState := { s1 with draggingIndex := getSortableIndex s1 t }
    if t.inContainer = false then none
    else some { s2 with sortableContainer := true }

/-- `Sortable.end` of the full variant (src/src/js/sortable.js lines
110-125): removes the dragging classes — dereferencing
`state.draggingElement` and `state.sortableContainer`, which raises (`none`)
when either is null — then clears all four state fields. -/
def endFull (s : SortState) : Option SortState :=
  match s.draggingElement with
  | none => none
  | some _ =>
    if s.sortableContainer = false then none
    else
      some { s with draggingElement := none, draggingIndex := none,
                    sortableContainer := false, sortableList := false }

/-- `Sortable.end` of the reduced variants (src/unnamed/part_001 lines 91-96
and src/unnamed/part_002 lines 92-100): unconditionally clears the state
fields and never raises. -/
def endClearVariant (s : SortState) : SortState :=
  { s with draggingElement := none, draggingIndex := none,
           sortableContainer := false, sortableList := false }

/-- `Sortable.over` (src/src/js/sortable.js lines 88-103): four guard
conditions, then `sort`. A guard failure returns the state unchanged with no
callback fired. Dereferencing a null `state.sortableContainer` in the
containment guard raises (`none`). -/
def over (s : SortState) (t : Elem) : Option (SortState × List SortState) :=
  if s.draggingElement.isNone then some (s, [])
  else if s.draggingElement = some t then some (s, [])
  else if t.sortable = false then some (s, [])
  else if s.sortableContainer = false then none
  else if t.inContainer = false then some (s, [])
  else sort s t

/-- `el.previousElementSibling` within the modelled list: the element just
before the first occurrence of `el`, if any. -/
def prevSibling : List Elem → Elem → Option Elem
  | c :: d :: rest, t =>
    if c = t then none
    else if d = t then some c
    else prevSibling (d :: rest) t
  | _, _ => none

/-- `el.nextElementSibling` within the modelled list: the element just after
the first occurrence of `el`, if any. -/
def nextSibling : List Elem → Elem → Option Elem
  | c :: d :: rest, t => if c = t then some d else nextSibling (d :: rest) t
  | _, _ => none

/-- The keys `Sortable.keydown` distinguishes. -/
inductive Key where
  | space
  | arrowUp
  | arrowDown
  | other
  deriving DecidableEq, Repr

/-- `Sortable.keydown` (src/src/js/sortable.js lines 174-213): spacebar
toggles grab and drop via `start` and the full-variant drag-end handler;
arrow keys while dragging call `sort` directly on the adjacent sibling when
one exists (then refocus the dragging element); arrow keys while idle move
focus only. `t` is the event target; focus changes are not part of the
state. -/
def keydown (s : SortState) (t : Elem) (k : Key) : Option (SortState × List SortState) :=
  if t.sortable = false then some (s, [])
  else
    match k with
    | Key.space =>
      if s.draggingElement.isNone then (start s t).map (fun s1 => (s1, ([] : List SortState)))
      else (endFull s).map (fun s1 => (s1, ([] : List SortState)))
    | Key.arrowUp =>
      if s.draggingElement.isSome then
        match prevSibling s.children t with
        | some target => sort s target
        | none => some (s, [])
      else some (s, [])
    | Key.arrowDown =>
      if s.draggingElement.isSome then
        match nextSibling s.children t with
        | some target => sort s target
        | none => some (s, [])
      else some (s, [])
    | Key.other => some (s, [])

/-- All four state fields are set: the Dragging configuration of the
lifecycle state machine. -/
def allSet (s : SortState) : Prop :=
  s.draggingElement.isSome = true ∧ s.draggingIndex.isSome = true ∧
    s.sortableList = true ∧ s.sortableContainer = true

instance (s : SortState) : Decidable (allSet s) := by
  unfold allSet
  infer_instance

/-- All four state fields are cleared: the Idle configuration of the
lifecycle state machine. -/
def allClear (s : SortState) : Prop :=
  s.draggingElement = none ∧ s.draggingIndex = none ∧
    s.sortableList = false ∧ s.sortableContainer = false

instance (s : SortState) : Decidable (allClear s) := by
  unfold allClear
  infer_instance

/-- Concrete sortable items for the worked examples. -/
def eA : Elem := ⟨0, true, true⟩

def eB : Elem := ⟨1, true, true⟩

def eC : Elem := ⟨2, true, true⟩

def eD : Elem := ⟨3, true, true⟩

/-- A list child that does not match the sortable attribute. -/
def eX : Elem := ⟨4, false, true⟩

/-- A sortable element lying outside the active container. -/
def eOut : Elem := ⟨5, true, false⟩

/-- The idle state over the example list `[A, B, C, D]`. -/
def s0 : SortState := ⟨[eA, eB, eC, eD], none, none, false, false⟩

/-! ## Helper lemmas about the scan loop and the splice -/

theorem first_occ_decomp {t : Elem} {l : List Elem} (h : t ∈ l) :
    ∃ l1 l2, l = l1 ++ t :: l2 ∧ t ∉ l1 := by
  induction l with
  | nil => cases h
  | cons c rest ih =>
    by_cases hc : c = t
    · exact ⟨[], rest, by simp [hc], List.not_mem_nil t⟩
    · have hr : t ∈ rest := by
        rcases List.mem_cons.mp h with h1 | h1
        · exact absurd h1.symm hc
        · exact h1
      obtain ⟨l1, l2, he, hn⟩ := ih hr
      refine ⟨c :: l1, l2, by rw [he]; rfl, ?_⟩
      intro hmem
      rcases List.mem_cons.mp hmem with h2 | h2
      · exact hc h2.symm
      · exact hn h2

theorem findLoop_not_mem {el : Elem} : ∀ {l : List Elem}, el ∉ l → ∀ i : Nat,
    findLoop l el i = none := by
  intro l
  induction l with
  | nil => intro _ i; rfl
  | cons c rest ih =>
    intro h i
    have hc : ¬ c = el := fun hce => h (hce ▸ List.mem_cons_self c rest)
    have hr : el ∉ rest := fun hm => h (List.mem_cons_of_mem c hm)
    simp [findLoop, hc, ih hr]

theorem findLoop_first_occ {el : Elem} : ∀ (l1 : List Elem) (l2 : List Elem),
    el ∉ l1 → ∀ i : Nat, findLoop (l1 ++ el :: l2) el i = some (i + l1.length) := by
  intro l1
  induction l1 with
  | nil => intro l2 _ i; simp [findLoop]
  | cons c rest ih =>
    intro l2 h i
    have hc : ¬ c = el := fun hce => h (hce ▸ List.mem_cons_self c rest)
    have hr : el ∉ rest := fun hm => h (List.mem_cons_of_mem c hm)
    have := ih l2 hr (i + 1)
    simp only [List.cons_append, findLoop, hc, if_false, List.append_eq]
    rw [this]
    congr 1
    simp [List.length_cons]
    omega

theorem scanChildren_first_occ {el : Elem} (l1 l2 : List Elem) (h : el ∉ l1) :
    scanChildren (l1 ++ el :: l2) el = l1.length := by
  unfold scanChildren
  rw [findLoop_first_occ l1 l2 h 0]
  simp

theorem scanChildren_not_mem {el : Elem} {l : List Elem} (h : el ∉ l) :
    scanChildren l el = 0 := by
  unfold scanChildren
  rw [findLoop_not_mem h 0]

theorem insertAdjacent_perm (b : Bool) (x : Elem) {t : Elem} {l : List Elem} (h : t ∈ l) :
    List.Perm (insertAdjacent b t x l) (x :: l) := by
  induction l with
  | nil => cases h
  | cons c rest ih =>
    by_cases hc : c = t
    · unfold insertAdjacent
      rw [if_pos hc]
      cases b with
      | true => simp
      | false => exact List.Perm.swap x c rest
    · have hr : t ∈ rest := by
        rcases List.mem_cons.mp h with h1 | h1
        · exact absurd h1.symm hc
        · exact h1
      unfold insertAdjacent
      rw [if_neg hc]
      exact ((ih hr).cons c).trans (List.Perm.swap x c rest)

theorem insertAdjacent_before_eq (x : Elem) {t : Elem} : ∀ (l1 : List Elem) (l2 : List Elem),
    t ∉ l1 → insertAdjacent true t x (l1 ++ t :: l2) = l1 ++ x :: t :: l2 := by
  intro l1
  induction l1 with
  | nil => intro l2 _; simp [insertAdjacent]
  | cons c rest ih =>
    intro l2 h
    have hc : ¬ c = t := fun hce => h (hce ▸ List.mem_cons_self c rest)
    have hr : t ∉ rest := fun hm => h (List.mem_cons_of_mem c hm)
    simp only [List.cons_append, insertAdjacent, hc, if_false, List.append_eq]
    rw [ih l2 hr]

theorem insertAdjacent_after_eq (x : Elem) {t : Elem} : ∀ (l1 : List Elem) (l2 : List Elem),
    t ∉ l1 → insertAdjacent false t x (l1 ++ t :: l2) = l1 ++ t :: x :: l2 := by
  intro l1
  induction l1 with
  | nil => intro l2 _; simp [insertAdjacent]
  | cons c rest ih =>
    intro l2 h
    have hc : ¬ c = t := fun hce => h (hce ▸ List.mem_cons_self c rest)
    have hr : t ∉ rest := fun hm => h (List.mem_cons_of_mem c hm)
    simp only [List.cons_append, insertAdjacent, hc, if_false, List.append_eq]
    rw [ih l2 hr]

/-- Unfolding equation for `sort` under an active, well-formed drag whose
target lies in the modelled list. -/
theorem sort_eq_of_active {s : SortState} {drag t : Elem}
    (hdrag : s.draggingElement = some drag)
    (hlist : s.sortableList = true)
    (hmem : drag ∈ s.children)
    (ht : t ∈ s.children.erase drag) :
    sort s t = some
      ({ s with
          children := insertAdjacent (jsLt (getSortableIndex s t) s.draggingIndex) t drag
            (s.children.erase drag),
          draggingIndex := some (scanChildren
            (insertAdjacent (jsLt (getSortableIndex s t) s.draggingIndex) t drag
              (s.children.erase drag)) drag) },
        [{ s with
            children := insertAdjacent (jsLt (getSortableIndex s t) s.draggingIndex) t drag
              (s.children.erase drag),
            draggingIndex := some (scanChildren
              (insertAdjacent (jsLt (getSortableIndex s t) s.draggingIndex) t drag
                (s.children.erase drag)) drag) }]) := by
  unfold sort
  rw [hdrag]
  simp [hlist, hmem, ht, getSortableIndex]

/-- Unfolding equation for the full-variant drag-end handler while a drag is
active. -/
theorem endFull_eq_of_active {s : SortState}
    (hdrag : s.draggingElement.isSome = true)
    (hcont : s.sortableContainer = true) :
    endFull s = some { s with draggingElement := none, draggingIndex := none,
                              sortableContainer := false, sortableList := false } := by
  obtain ⟨d, hd⟩ := Option.isSome_iff_exists.mp hdrag
  unfold endFull
  rw [hd]
  simp [hcont]

/-! ## Claim theorems -/

/-- C1 (amended): for every active drag over the modelled list, a reorder
moves upward exactly when the target index is less than the stored dragging
index; the dragging element is removed and reinserted immediately before the
target when moving upward and immediately after it when moving downward, and
the dragging index is recomputed to the new position. For the list
`[A, B, C, D]` with `A` grabbed, a reorder over `C` yields `[B, C, A, D]`
with new dragging index `2` (as claimed); a subsequent reorder over `B` is
an upward move that puts `A` immediately before `B`, yielding `[A, B, C, D]`
with dragging index `0` — not `[B, A, C, D]` with index `1`. -/
theorem c1_reorder_direction (s : SortState) (drag t : Elem) (di : Nat)
    (k1 k2 : List Elem)
    (hdrag : s.draggingElement = some drag)
    (hlist : s.sortableList = true)
    (hdi : s.draggingIndex = some di)
    (hnodup : s.children.Nodup)
    (hmem : drag ∈ s.children)
    (hck : s.children = k1 ++ t :: k2)
    (hk1 : t ∉ k1)
    (hne : t ≠ drag) :
    ∃ s' l1 l2,
      sort s t = some (s', [s']) ∧
      s.children.erase drag = l1 ++ t :: l2 ∧ t ∉ l1 ∧
      ((k1.length < di →
        s'.children = l1 ++ drag :: t :: l2 ∧ s'.draggingIndex = some l1.length) ∧
       (¬ k1.length < di →
        s'.children = l1 ++ t :: drag :: l2 ∧ s'.draggingIndex = some (l1.length + 1))) := by
  have ht : t ∈ s.children := by
    rw [hck]
    exact List.mem_append.mpr (Or.inr (List.mem_cons_self t k2))
  have hterase : t ∈ s.children.erase drag := (List.mem_erase_of_ne hne).mpr ht
  obtain ⟨l1, l2, he, hnl1⟩ := first_occ_decomp hterase
  have hdragnot : drag ∉ s.children.erase drag := hnodup.not_mem_erase
  have hdragl1 : drag ∉ l1 := by
    intro hm
    rw [he] at hdragnot
    exact hdragnot (List.mem_append.mpr (Or.inl hm))
  have hdragt : ¬ drag = t := fun hh => hne hh.symm
  have hdragl1t : drag ∉ l1 ++ [t] := by
    intro hm
    rcases List.mem_append.mp hm with hm1 | hm1
    · exact hdragl1 hm1
    · exact hdragt (List.mem_singleton.mp hm1)
  have hidx : getSortableIndex s t = some k1.length := by
    simp [getSortableIndex, hlist, hck, scanChildren_first_occ k1 k2 hk1]
  rw [sort_eq_of_active hdrag hlist hmem hterase]
  by_cases hlt : k1.length < di
  · have hup : jsLt (getSortableIndex s t) s.draggingIndex = true := by
      rw [hidx, hdi]
      simp [jsLt, hlt]
    rw [hup, he, insertAdjacent_before_eq drag l1 l2 hnl1,
      scanChildren_first_occ l1 (t :: l2) hdragl1]
    exact ⟨_, l1, l2, rfl, rfl, hnl1, fun _ => ⟨rfl, rfl⟩, fun hcon => absurd hlt hcon⟩
  · have hup : jsLt (getSortableIndex s t) s.draggingIndex = false := by
      rw [hidx, hdi]
      simp [jsLt, hlt]
    have hscan : scanChildren (l1 ++ t :: drag :: l2) drag = l1.length + 1 := by
      have h2 := scanChildren_first_occ (l1 ++ [t]) l2 hdragl1t
      simpa using h2
    rw [hup, he, insertAdjacent_after_eq drag l1 l2 hnl1, hscan]
    exact ⟨_, l1, l2, rfl, rfl, hnl1, fun hcon => absurd hcon hlt, fun _ => ⟨rfl, rfl⟩⟩

/-- Witness for `c1_reorder_direction`: the state reached from `[A, B, C, D]`
after grabbing `A` and reordering over `C` — children `[B, C, A, D]`, dragging
index `2` — reordered over `B`. -/
theorem c1_reorder_direction_witness :
    ∃ s' l1 l2,
      sort ⟨[eB, eC, eA, eD], some eA, some 2, true, true⟩ eB = some (s', [s']) ∧
      (SortState.mk [eB, eC, eA, eD] (some eA) (some 2) true true).children.erase eA =
        l1 ++ eB :: l2 ∧ eB ∉ l1 ∧
      ((List.length ([] : List Elem) < 2 →
        s'.children = l1 ++ eA :: eB :: l2 ∧ s'.draggingIndex = some l1.length) ∧
       (¬ List.length ([] : List Elem) < 2 →
        s'.children = l1 ++ eB :: eA :: l2 ∧ s'.draggingIndex = some (l1.length + 1))) := by
  have h := c1_reorder_direction ⟨[eB, eC, eA, eD], some eA, some 2, true, true⟩ eA eB 2
    [] [eC, eA, eD] rfl rfl rfl (by decide) (by decide) rfl (by decide) (by decide)
  exact h

/-- Counterexample to C1 as stated: from `[A, B, C, D]` with `A` grabbed, a
reorder over `C` followed by a reorder over `B` yields children
`[A, B, C, D]` with dragging index `0`, not the claimed `[B, A, C, D]` with
index `1`. -/
theorem c1_counterexample :
    ((start s0 eA).bind (fun s1 => over s1 eC)).bind (fun p => over p.1 eB) =
      some (⟨[eA, eB, eC, eD], some eA, some 0, true, true⟩,
            [⟨[eA, eB, eC, eD], some eA, some 0, true, true⟩]) ∧
    (SortState.mk [eA, eB, eC, eD] (some eA) (some 0) true true).children ≠
      [eB, eA, eC, eD] ∧
    (SortState.mk [eA, eB, eC, eD] (some eA) (some 0) true true).draggingIndex ≠
      some 1 := by
  decide

/-- C2: for every list and every drag-start on a sortable item, drag-over on
a valid target and drag-end, the operations all succeed and the resulting
child list is a permutation of the original. -/
theorem c2_drag_sequence_perm (s : SortState) (t0 tgt : Elem)
    (h0s : t0.sortable = true) (h0c : t0.inContainer = true)
    (hts : tgt.sortable = true) (htc : tgt.inContainer = true)
    (h0m : t0 ∈ s.children) (htm : tgt ∈ s.children) (hne : tgt ≠ t0) :
    ∃ s1 s2 log s3,
      start s t0 = some s1 ∧
      over s1 tgt = some (s2, log) ∧
      endFull s2 = some s3 ∧
      List.Perm s3.children s.children := by
  have hex : ∃ s1, start s t0 = some s1 ∧ s1.children = s.children ∧
      s1.draggingElement = some t0 ∧ s1.sortableList = true ∧
      s1.sortableContainer = true := by
    refine ⟨({ s with
              draggingElement := some t0
              sortableList := true
              draggingIndex := some (scanChildren s.children t0)
              sortableContainer := true } : SortState), ?_, rfl, rfl, rfl, rfl⟩
    simp [start, h0s, h0c, getSortableIndex]
  obtain ⟨s1, hstart, hs1c, hs1d, hs1l, hs1co⟩ := hex
  have h0m1 : t0 ∈ s1.children := by rw [hs1c]; exact h0m
  have hterase1 : tgt ∈ s1.children.erase t0 := by
    rw [hs1c]
    exact (List.mem_erase_of_ne hne).mpr htm
  have hover : over s1 tgt = sort s1 tgt := by
    simp [over, hs1d, hne.symm, hts, hs1co, htc]
  have hsort := sort_eq_of_active (s := s1) hs1d hs1l h0m1 hterase1
  rw [hsort] at hover
  have hend := endFull_eq_of_active
    (s := { s1 with
        children := insertAdjacent (jsLt (getSortableIndex s1 tgt) s1.draggingIndex) tgt t0
          (s1.children.erase t0)
        draggingIndex := some (scanChildren
          (insertAdjacent (jsLt (getSortableIndex s1 tgt) s1.draggingIndex) tgt t0
            (s1.children.erase t0)) t0) })
    (by show s1.draggingElement.isSome = true; rw [hs1d]; rfl)
    (by show s1.sortableContainer = true; exact hs1co)
  refine ⟨s1, _, _, _, hstart, hover, hend, ?_⟩
  have hperm : List.Perm
      (insertAdjacent (jsLt (getSortableIndex s1 tgt) s1.draggingIndex) tgt t0
        (s1.children.erase t0)) s.children := by
    rw [← hs1c]
    exact (insertAdjacent_perm _ t0 hterase1).trans (List.perm_cons_erase h0m1).symm
  exact hperm

/-- Witness for `c2_drag_sequence_perm`: grabbing `A` in `[A, B, C, D]`,
dragging it over `C` and dropping it keeps the children a permutation of
the original list. -/
theorem c2_drag_sequence_perm_witness :
    ∃ s1 s2 log s3,
      start s0 eA = some s1 ∧
      over s1 eC = some (s2, log) ∧
      endFull s2 = some s3 ∧
      List.Perm s3.children s0.children :=
  c2_drag_sequence_perm s0 eA eC rfl rfl rfl rfl (by decide) (by decide) (by decide)

/-- C3 (amended): in the full variant every successful reorder fires the
`onSort` callback exactly once, with the single snapshot being the final
state — the dragging element reinserted and the dragging index recomputed
from the new position; in the reduced variant (src/unnamed/part_002, cited
by the claim) `sort` never invokes the configured callback, so a successful
reorder fires it zero times. -/
theorem c3_callback_variants :
    (∀ s drag t, s.draggingElement = some drag → s.sortableList = true →
      drag ∈ s.children → t ∈ s.children.erase drag →
      ∃ s', sort s t = some (s', [s']) ∧
        s'.draggingElement = some drag ∧
        s'.draggingIndex = getSortableIndex s' drag) ∧
    (∀ s t s' log, sortVariant s t = some (s', log) → log = []) := by
  constructor
  · intro s drag t hdrag hlist hmem ht
    rw [sort_eq_of_active hdrag hlist hmem ht]
    refine ⟨_, rfl, hdrag, ?_⟩
    simp [getSortableIndex, hlist]
  · intro s t s' log h
    cases hd : s.draggingElement with
    | none =>
      unfold sortVariant at h
      rw [hd] at h
      cases h
    | some d =>
      unfold sortVariant at h
      rw [hd] at h
      by_cases h3 : s.sortableList = false
      · simp [h3] at h
      · by_cases hm : d ∈ s.children
        · by_cases ht : t ∈ s.children.erase d
          · simp [h3, hm, ht] at h
            exact h.2
          · simp [h3, hm, ht] at h
        · simp [h3, hm] at h

/-- Witness for `c3_callback_variants`: dragging `A` over `C` in
`[A, B, C, D]` in each variant. -/
theorem c3_callback_variants_witness :
    (∃ s', sort ⟨[eA, eB, eC, eD], some eA, some 0, true, true⟩ eC = some (s', [s']) ∧
      s'.draggingElement = some eA ∧
      s'.draggingIndex = getSortableIndex s' eA) ∧
    ([] : List SortState) = [] :=
  ⟨c3_callback_variants.1 ⟨[eA, eB, eC, eD], some eA, some 0, true, true⟩ eA eC
     rfl rfl (by decide) (by decide),
   c3_callback_variants.2 ⟨[eA, eB, eC, eD], some eA, some 0, true, true⟩ eC
     ⟨[eB, eC, eA, eD], some eA, some 2, true, true⟩ [] (by decide)⟩

/-- Counterexample to C3 as stated: in the reduced variant
(src/unnamed/part_002, cited by the claim), a successful reorder — dragging
`A` over `C` in `[A, B, C, D]` — completes with an empty callback log:
`sort` never invokes the caller-supplied `onSort`, so the callback fires
zero times, not exactly once. -/
theorem c3_counterexample :
    sortVariant ⟨[eA, eB, eC, eD], some eA, some 0, true, true⟩ eC =
      some (⟨[eB, eC, eA, eD], some eA, some 2, true, true⟩, []) ∧
    ([] : List SortState) ≠
      [⟨[eB, eC, eA, eD], some eA, some 2, true, true⟩] := by
  decide

/-- C4: after every reorder the stored dragging index equals the dragged
element's true position among the ordered children — the position of its
(unique) occurrence — and this state is the one the callback receives. -/
theorem c4_index_in_sync (s : SortState) (drag t : Elem)
    (hdrag : s.draggingElement = some drag)
    (hlist : s.sortableList = true)
    (hnodup : s.children.Nodup)
    (hmem : drag ∈ s.children)
    (ht : t ∈ s.children.erase drag) :
    ∃ s' l1 l2, sort s t = some (s', [s']) ∧
      s'.draggingElement = some drag ∧
      s'.children = l1 ++ drag :: l2 ∧ drag ∉ l1 ∧
      s'.draggingIndex = some l1.length := by
  obtain ⟨m1, m2, he, hnm1⟩ := first_occ_decomp ht
  have hdragnot : drag ∉ s.children.erase drag := hnodup.not_mem_erase
  rw [he] at hdragnot
  have hdragm1 : drag ∉ m1 := fun hm => hdragnot (List.mem_append.mpr (Or.inl hm))
  have hdragt : ¬ drag = t := fun hh =>
    hdragnot (List.mem_append.mpr (Or.inr (List.mem_cons.mpr (Or.inl hh))))
  have hdragm1t : drag ∉ m1 ++ [t] := by
    intro hm
    rcases List.mem_append.mp hm with hm1 | hm1
    · exact hdragm1 hm1
    · exact hdragt (List.mem_singleton.mp hm1)
  rw [sort_eq_of_active hdrag hlist hmem ht]
  cases hup : jsLt (getSortableIndex s t) s.draggingIndex with
  | true =>
    rw [he, insertAdjacent_before_eq drag m1 m2 hnm1,
      scanChildren_first_occ m1 (t :: m2) hdragm1]
    exact ⟨_, m1, t :: m2, rfl, hdrag, rfl, hdragm1, rfl⟩
  | false =>
    have hscan : scanChildren (m1 ++ t :: drag :: m2) drag = (m1 ++ [t]).length := by
      have h2 := scanChildren_first_occ (m1 ++ [t]) m2 hdragm1t
      simpa using h2
    rw [he, insertAdjacent_after_eq drag m1 m2 hnm1, hscan]
    refine ⟨_, m1 ++ [t], m2, rfl, hdrag, ?_, hdragm1t, rfl⟩
    simp

/-- Witness for `c4_index_in_sync`: dragging `A` over `C` in `[A, B, C, D]`. -/
theorem c4_index_in_sync_witness :
    ∃ s' l1 l2, sort ⟨[eA, eB, eC, eD], some eA, some 0, true, true⟩ eC = some (s', [s']) ∧
      s'.draggingElement = some eA ∧
      s'.children = l1 ++ eA :: l2 ∧ eA ∉ l1 ∧
      s'.draggingIndex = some l1.length := by
  exact c4_index_in_sync ⟨[eA, eB, eC, eD], some eA, some 0, true, true⟩ eA eC
    rfl rfl (by decide) (by decide) (by decide)

/-- A drag-over event failing any of the four guard conditions leaves the
state unchanged and fires no callback (helper shared by the claims about
guards). -/
theorem over_guard_noop (s : SortState) (t : Elem)
    (h : s.draggingElement = none ∨ s.draggingElement = some t ∨
      t.sortable = false ∨ (s.sortableContainer = true ∧ t.inContainer = false)) :
    over s t = some (s, []) := by
  rcases h with h1 | h1 | h1 | ⟨h1, h2⟩
  · simp [over, h1]
  · simp [over, h1]
  · cases hd : s.draggingElement with
    | none => simp [over, hd]
    | some d =>
      by_cases hdt : d = t
      · simp [over, hd, hdt]
      · simp [over, hd, hdt, h1]
  · cases hd : s.draggingElement with
    | none => simp [over, hd]
    | some d =>
      by_cases hdt : d = t
      · simp [over, hd, hdt]
      · by_cases hts : t.sortable = false
        · simp [over, hd, hdt, hts]
        · simp [over, hd, hdt, hts, h1, h2]

/-- `sort` keeps all four state fields set (helper for the claims about the
lifecycle invariant). -/
theorem sort_preserves_allSet {s : SortState} {t : Elem} {s' : SortState}
    {log : List SortState} (hset : allSet s) (h : sort s t = some (s', log)) :
    allSet s' := by
  obtain ⟨h1, h2, h3, h4⟩ := hset
  obtain ⟨d, hd⟩ := Option.isSome_iff_exists.mp h1
  by_cases hm : d ∈ s.children
  · by_cases ht : t ∈ s.children.erase d
    · rw [sort_eq_of_active hd h3 hm ht] at h
      rw [Option.some_inj, Prod.mk.injEq] at h
      obtain ⟨hs, -⟩ := h
      subst hs
      exact ⟨h1, by simp [getSortableIndex, h3], h3, h4⟩
    · have hnone : sort s t = none := by
        unfold sort
        rw [hd]
        simp [h3, hm, ht]
      rw [hnone] at h
      cases h
  · have hnone : sort s t = none := by
      unfold sort
      rw [hd]
      simp [h3, hm]
    rw [hnone] at h
    cases h

/-- C5: every drag-over event failing one of the guard conditions — no drag
active, the target equal to the dragging element, the target not matching
the sortable attribute, or the target outside the active container — is a
no-op: state and child list are left unchanged and the reorder callback does
not fire. -/
theorem c5_over_guard_noop (s : SortState) (t : Elem)
    (h : s.draggingElement = none ∨ s.draggingElement = some t ∨
      t.sortable = false ∨ (s.sortableContainer = true ∧ t.inContainer = false)) :
    over s t = some (s, []) :=
  over_guard_noop s t h

/-- Witness for `c5_over_guard_noop`: dragging `A` over itself fires no
callback and changes nothing. -/
theorem c5_over_guard_noop_witness :
    over ⟨[eA, eB, eC, eD], some eA, some 0, true, true⟩ eA =
      some (⟨[eA, eB, eC, eD], some eA, some 0, true, true⟩, []) :=
  c5_over_guard_noop ⟨[eA, eB, eC, eD], some eA, some 0, true, true⟩ eA
    (Or.inr (Or.inl rfl))

/-- C6: during an active drag, index lookup returns the element position in
the ordered child list found by linear scan — the position of its first
occurrence — and returns `0` when the element is not among the children. -/
theorem c6_index_lookup (s : SortState) (el : Elem) (hl : s.sortableList = true) :
    (∀ l1 l2, s.children = l1 ++ el :: l2 → el ∉ l1 →
      getSortableIndex s el = some l1.length) ∧
    (el ∉ s.children → getSortableIndex s el = some 0) := by
  constructor
  · intro l1 l2 hc h1
    simp [getSortableIndex, hl, hc, scanChildren_first_occ l1 l2 h1]
  · intro h
    simp [getSortableIndex, hl, scanChildren_not_mem h]

/-- Witness for `c6_index_lookup`: `B` is found at position `1` of
`[A, B, C, D]`, and the non-child `X` yields the fallback `0`. -/
theorem c6_index_lookup_witness :
    getSortableIndex ⟨[eA, eB, eC, eD], some eA, some 0, true, true⟩ eB = some 1 ∧
    getSortableIndex ⟨[eA, eB, eC, eD], some eA, some 0, true, true⟩ eX = some 0 := by
  constructor
  · have h := (c6_index_lookup ⟨[eA, eB, eC, eD], some eA, some 0, true, true⟩ eB rfl).1
      [eA] [eC, eD] (by decide) (by decide)
    simpa using h
  · exact (c6_index_lookup ⟨[eA, eB, eC, eD], some eA, some 0, true, true⟩ eX rfl).2
      (by decide)

/-- Counterexample to C7 as stated: in the full variant, a drag-end arriving
while no drag is active dereferences the null dragging element, so the
handler raises a TypeError (modelled as `none`) instead of returning
silently. -/
theorem c7_counterexample : endFull s0 = none := rfl

/-- C7 (amended): drag-start, drag-over and keydown guard failures are
silent no-ops, and in the reduced variants a drag-end with no active drag
silently leaves the already-clear state unchanged; in the full variant,
however, the drag-end handler has no guard and raises when no drag is
active. -/
theorem c7_guards_silent :
    (∀ s t, t.sortable = false → start s t = some s) ∧
    (∀ s t, s.draggingElement = none ∨ s.draggingElement = some t ∨
      t.sortable = false ∨ (s.sortableContainer = true ∧ t.inContainer = false) →
      over s t = some (s, [])) ∧
    (∀ s t k, t.sortable = false → keydown s t k = some (s, [])) ∧
    (∀ s, allClear s → endClearVariant s = s) ∧
    (∀ s, s.draggingElement = none → endFull s = none) := by
  refine ⟨?_, ?_, ?_, ?_, ?_⟩
  · intro s t h
    simp [start, h]
  · intro s t h
    exact over_guard_noop s t h
  · intro s t k h
    simp [keydown, h]
  · intro s hclear
    obtain ⟨h1, h2, h3, h4⟩ := hclear
    cases s
    simp_all [endClearVariant]
  · intro s h
    simp [endFull, h]

/-- Witness for `c7_guards_silent`: concrete guard failures over the example
list, and the idle-state drag-end in both variants. -/
theorem c7_guards_silent_witness :
    start s0 eX = some s0 ∧
    over s0 eB = some (s0, []) ∧
    keydown s0 eX Key.space = some (s0, []) ∧
    endClearVariant s0 = s0 ∧
    endFull s0 = none :=
  ⟨c7_guards_silent.1 s0 eX (by decide),
   c7_guards_silent.2.1 s0 eB (Or.inl rfl),
   c7_guards_silent.2.2.1 s0 eX Key.space (by decide),
   c7_guards_silent.2.2.2.1 s0 (by decide),
   c7_guards_silent.2.2.2.2 s0 rfl⟩

/-- C8: drag-start on a sortable element inside a container sets all four
state fields together; drag-end during an active drag clears all four
together; and a drag-over transition never leaves them partially set. -/
theorem c8_fields_together :
    (∀ s t, t.sortable = true → t.inContainer = true →
      ∃ s', start s t = some s' ∧ allSet s' ∧ s'.children = s.children) ∧
    (∀ s, allSet s →
      ∃ s', endFull s = some s' ∧ allClear s' ∧ s'.children = s.children) ∧
    (∀ s t s' log, allSet s → over s t = some (s', log) → allSet s') := by
  refine ⟨?_, ?_, ?_⟩
  · intro s t h1 h2
    refine ⟨({ s with
        draggingElement := some t
        sortableList := true
        draggingIndex := some (scanChildren s.children t)
        sortableContainer := true } : SortState), ?_, ⟨rfl, rfl, rfl, rfl⟩, rfl⟩
    simp [start, h1, h2, getSortableIndex]
  · intro s hset
    refine ⟨_, endFull_eq_of_active hset.1 hset.2.2.2, ⟨rfl, rfl, rfl, rfl⟩, rfl⟩
  · intro s t s' log hset hover
    obtain ⟨h1, h2, h3, h4⟩ := hset
    obtain ⟨d, hd⟩ := Option.isSome_iff_exists.mp h1
    by_cases hdt : d = t
    · rw [over_guard_noop s t (Or.inr (Or.inl (hdt ▸ hd)))] at hover
      rw [Option.some_inj, Prod.mk.injEq] at hover
      obtain ⟨hs, -⟩ := hover
      subst hs
      exact ⟨h1, h2, h3, h4⟩
    · by_cases hts : t.sortable = false
      · rw [over_guard_noop s t (Or.inr (Or.inr (Or.inl hts)))] at hover
        rw [Option.some_inj, Prod.mk.injEq] at hover
        obtain ⟨hs, -⟩ := hover
        subst hs
        exact ⟨h1, h2, h3, h4⟩
      · by_cases htc : t.inContainer = false
        · rw [over_guard_noop s t (Or.inr (Or.inr (Or.inr ⟨h4, htc⟩)))] at hover
          rw [Option.some_inj, Prod.mk.injEq] at hover
          obtain ⟨hs, -⟩ := hover
          subst hs
          exact ⟨h1, h2, h3, h4⟩
        · have hsort : over s t = sort s t := by
            simp [over, hd, hdt, hts, h4, htc]
          rw [hsort] at hover
          exact sort_preserves_allSet ⟨h1, h2, h3, h4⟩ hover

/-- Witness for `c8_fields_together`: starting a drag on `A` from the idle
example state, and ending the resulting drag. -/
theorem c8_fields_together_witness :
    (∃ s', start s0 eA = some s' ∧ allSet s' ∧ s'.children = s0.children) ∧
    (∃ s', endFull ⟨[eA, eB, eC, eD], some eA, some 0, true, true⟩ = some s' ∧
      allClear s' ∧ s'.children = [eA, eB, eC, eD]) :=
  ⟨c8_fields_together.1 s0 eA rfl rfl,
   c8_fields_together.2.1 ⟨[eA, eB, eC, eD], some eA, some 0, true, true⟩
     ⟨rfl, rfl, rfl, rfl⟩⟩

/-- C9 (amended): the keyboard layer maps spacebar to drag-start when idle
and to the full-variant drag-end when dragging, and maps a directional key
while dragging to a reorder over the adjacent sibling whenever one exists,
invoking `sort` directly; the drag-over guards (sortable attribute,
containment, not-self) are not re-checked, and the keyboard transition
agrees with the guarded drag-over Reorder exactly when the sibling passes
those guards. -/
theorem c9_keyboard_mapping :
    (∀ s t, t.sortable = true → s.draggingElement = none →
      keydown s t Key.space = (start s t).map (fun s1 => (s1, []))) ∧
    (∀ s t, t.sortable = true → s.draggingElement.isSome = true →
      keydown s t Key.space = (endFull s).map (fun s1 => (s1, []))) ∧
    (∀ s t tgt, t.sortable = true → s.draggingElement.isSome = true →
      nextSibling s.children t = some tgt →
      keydown s t Key.arrowDown = sort s tgt) ∧
    (∀ s t tgt, t.sortable = true → s.draggingElement.isSome = true →
      prevSibling s.children t = some tgt →
      keydown s t Key.arrowUp = sort s tgt) ∧
    (∀ s t tgt, t.sortable = true → s.draggingElement.isSome = true →
      nextSibling s.children t = some tgt →
      tgt.sortable = true → tgt.inContainer = true → s.sortableContainer = true →
      s.draggingElement ≠ some tgt →
      keydown s t Key.arrowDown = over s tgt) := by
  refine ⟨?_, ?_, ?_, ?_, ?_⟩
  · intro s t h1 h2
    simp [keydown, h1, h2]
  · intro s t h1 h2
    simp [keydown, h1, Option.isNone_iff_eq_none, Option.isSome_iff_ne_none.mp h2]
  · intro s t tgt h1 h2 h3
    simp [keydown, h1, h2, h3]
  · intro s t tgt h1 h2 h3
    simp [keydown, h1, h2, h3]
  · intro s t tgt h1 h2 h3 h4 h5 h6 h7
    obtain ⟨d, hd⟩ := Option.isSome_iff_exists.mp h2
    rw [hd] at h7
    have hdt : ¬ d = tgt := fun hh => h7 (by rw [hh])
    have hover : over s tgt = sort s tgt := by
      simp [over, hd, hdt, h4, h5, h6]
    rw [hover]
    simp [keydown, h1, h2, h3]

/-- Witness for `c9_keyboard_mapping`: arrow-down while dragging `A` in
`[A, B, C, D]` reorders over the sibling `B`, and agrees with the guarded
drag-over since `B` passes every guard. -/
theorem c9_keyboard_mapping_witness :
    keydown ⟨[eA, eB, eC, eD], some eA, some 0, true, true⟩ eA Key.arrowDown =
      sort ⟨[eA, eB, eC, eD], some eA, some 0, true, true⟩ eB ∧
    keydown ⟨[eA, eB, eC, eD], some eA, some 0, true, true⟩ eA Key.arrowDown =
      over ⟨[eA, eB, eC, eD], some eA, some 0, true, true⟩ eB :=
  ⟨c9_keyboard_mapping.2.2.1 ⟨[eA, eB, eC, eD], some eA, some 0, true, true⟩ eA eB
     rfl rfl (by decide),
   c9_keyboard_mapping.2.2.2.2 ⟨[eA, eB, eC, eD], some eA, some 0, true, true⟩ eA eB
     rfl rfl (by decide) rfl rfl rfl (by decide)⟩

/-- Counterexample to C9 as stated: with children `[A, X, B]` where `X` does
not match the sortable attribute, arrow-down while dragging `A` reorders
over `X` and fires the callback, although a drag-over on `X` is rejected by
the attribute guard and is a no-op — the keyboard transition is not subject
to the same guard conditions. -/
theorem c9_counterexample :
    keydown ⟨[eA, eX, eB], some eA, some 0, true, true⟩ eA Key.arrowDown =
      some (⟨[eX, eA, eB], some eA, some 1, true, true⟩,
            [⟨[eX, eA, eB], some eA, some 1, true, true⟩]) ∧
    over ⟨[eA, eX, eB], some eA, some 0, true, true⟩ eX =
      some (⟨[eA, eX, eB], some eA, some 0, true, true⟩, []) ∧
    ([eX, eA, eB] : List Elem) ≠ [eA, eX, eB] := by
  decide

/-- C10: while no drag is active (the stored list reference is unset), index
lookup returns no number at all — JavaScript `undefined`, modelled as
`none` — whereas during an active drag it always returns a number; the
in-drag not-found fallback of `0` is a different phenomenon. -/
theorem c10_lookup_undefined :
    (∀ s el, s.sortableList = false → getSortableIndex s el = none) ∧
    (∀ s el, s.sortableList = true →
      getSortableIndex s el = some (scanChildren s.children el)) := by
  constructor
  · intro s el h
    simp [getSortableIndex, h]
  · intro s el h
    simp [getSortableIndex, h]

/-- Witness for `c10_lookup_undefined`: lookup of `A` while idle yields
`none`; lookup of `B` during a drag yields a number. -/
theorem c10_lookup_undefined_witness :
    getSortableIndex s0 eA = none ∧
    getSortableIndex ⟨[eA, eB, eC, eD], some eA, some 0, true, true⟩ eB =
      some (scanChildren [eA, eB, eC, eD] eB) :=
  ⟨c10_lookup_undefined.1 s0 eA rfl,
   c10_lookup_undefined.2 ⟨[eA, eB, eC, eD], some eA, some 0, true, true⟩ eB rfl⟩

end Sortable
